import Mathlib

/-
  Verification of the Dynamic-Content-Curation-Summary-Agent pipeline
  (src/pubmed_fetcher.py and src/app.py) against its specification.

  The development shallowly embeds the pure content of the pipeline:
  the text normalizer `clean_text`, the XML parsing performed by
  `fetch_article_details_with_abstract`, the persistence routine
  `store_articles` (the database modelled as a list of rows, the final
  commit outcome as an explicit boolean), the enrichment stage of the
  main script, and the read routine `get_articles_from_db` of app.py.
-/

/- ===================================================================
   Section 1: the Text Normalizer (pubmed_fetcher.py, clean_text).

   The Python source is:

     def clean_text(text):
         if text is None: return ""
         text = str(text)
         text = text.replace('&', '&').replace('<', '<').replace('>', '>')
                    .replace('"', '"').replace('a-circumflex euro tm', "'")
         clean = re.compile('<.*?>')
         text = re.sub(clean, '', text)
         text = re.sub(r'\s+', ' ', text).strip()
         return text

   The first four .replace calls replace a character with itself and are
   identities; the only effective replacement is the three-character
   mis-encoded apostrophe sequence U+00E2 U+20AC U+2122 -> "'".
   `re.sub('<.*?>', '')` removes every lazily-matched tag-shaped span;
   since `.` does not match a newline, a '<' with no '>' before the next
   newline is left in place.  `re.sub(r'\s+', ' ')` collapses whitespace
   runs to one space and `.strip()` trims the ends.  We model the ASCII
   whitespace class (space, tab, newline, carriage return, vertical tab,
   form feed); the claims exercise only these characters.
   ================================================================= -/

/-- U+00E2, first character of the mis-encoded apostrophe sequence. -/
def mojiA : Char := Char.ofNat 0xE2

/-- U+20AC, second character of the mis-encoded apostrophe sequence. -/
def mojiB : Char := Char.ofNat 0x20AC

/-- U+2122, third character of the mis-encoded apostrophe sequence. -/
def mojiC : Char := Char.ofNat 0x2122

/-- The apostrophe character. -/
def apos : Char := Char.ofNat 39

/-- The ASCII whitespace characters matched by the regex class \s. -/
def isPySpace (c : Char) : Bool :=
  c == ' ' || c == '\t' || c == '\n' || c == '\r' ||
  c == Char.ofNat 11 || c == Char.ofNat 12

/-- str.replace of the three-character mis-encoded apostrophe sequence by
an apostrophe, scanning left to right over non-overlapping occurrences
(the four preceding .replace calls of the source replace a character by
itself and are identities). -/
def replaceMoji : List Char → List Char
  | c :: c2 :: c3 :: rest =>
    if c = mojiA ∧ c2 = mojiB ∧ c3 = mojiC then apos :: replaceMoji rest
    else c :: replaceMoji (c2 :: c3 :: rest)
  | c :: rest => c :: replaceMoji rest
  | [] => []

/-- Worker for re.sub('<.*?>', '').  The first argument is the reversed
buffer of characters consumed since an unclosed '<' (empty when not
inside a candidate match).  On '>' the buffered span is the lazy match
and is dropped; on a newline the match attempt fails, and every buffered
character is emitted as plain text (none of them can begin a match,
since the same newline blocks any '>' for them as well). -/
def stripTagsGo : List Char → List Char → List Char
  | buf, [] => buf.reverse
  | [], c :: rest =>
      if c = '<' then stripTagsGo ['<'] rest else c :: stripTagsGo [] rest
  | b :: buf, c :: rest =>
      if c = '>' then stripTagsGo [] rest
      else if c = '\n' then (b :: buf).reverse ++ '\n' :: stripTagsGo [] rest
      else stripTagsGo (c :: b :: buf) rest

/-- re.sub of the lazy tag pattern by the empty string. -/
def stripTags (l : List Char) : List Char := stripTagsGo [] l

/-- Worker for re.sub(r'\s+', ' '): the flag records whether the previous
character was whitespace (in which case further whitespace is dropped
rather than emitting another space). -/
def collapseGo : Bool → List Char → List Char
  | _, [] => []
  | prev, c :: rest =>
      if isPySpace c then
        if prev then collapseGo true rest else ' ' :: collapseGo true rest
      else c :: collapseGo false rest

/-- re.sub of whitespace runs by a single space. -/
def collapse (l : List Char) : List Char := collapseGo false l

/-- str.strip(): remove leading and trailing whitespace. -/
def stripEnds (l : List Char) : List Char :=
  ((l.dropWhile isPySpace).reverse.dropWhile isPySpace).reverse

/-- clean_text on character lists: identity replaces, mis-encoded
apostrophe fix, lazy tag removal, whitespace collapse, strip. -/
def cleanChars (l : List Char) : List Char :=
  stripEnds (collapse (stripTags (replaceMoji l)))

/-- clean_text (pubmed_fetcher.py lines 71-78) on a string input.  The
None input branch of the source returns "" and is modelled by
`clean_textOpt` below. -/
def clean_text (s : String) : String := ⟨cleanChars s.toList⟩

/-- clean_text including the None branch of the source. -/
def clean_textOpt : Option String → String
  | none => ""
  | some s => clean_text s

example : clean_text "A &amp; B <b>bold</b>\n\n  text" = "A &amp; B bold text" := by rfl
example : clean_text "<a\n\nb>" = "<a b>" := by rfl
example : clean_text "<a b>" = "" := by rfl
example : clean_text (⟨[mojiA, mojiB, mojiC]⟩ : String) = ⟨[apos]⟩ := by rfl
example : clean_text "  x   y  " = "x y" := by rfl

/- ===================================================================
   Infrastructure for the normalizer idempotence analysis.
   ================================================================= -/

/-- No '<' to the left of a '>': the pair relation under `List.Pairwise`
asserting that a list contains no tag-shaped span. -/
def ltGtFree (a b : Char) : Prop := a = '<' → b ≠ '>'

/-- A list is tag-free when no '<' has a '>' anywhere after it; the tag
removal pass leaves such a list unchanged. -/
def tagFree (l : List Char) : Prop := l.Pairwise ltGtFree

theorem tagFree_of_no_gt {l : List Char} (h : '>' ∉ l) : tagFree l :=
  List.pairwise_of_forall_mem_list fun _ _ _ hc _ hc2 => h (hc2 ▸ hc)

theorem mem_stripTagsGo :
    ∀ (l buf : List Char) (c : Char), c ∈ stripTagsGo buf l → c ∈ buf ∨ c ∈ l := by
  intro l
  induction l with
  | nil =>
    intro buf c hc
    simp only [stripTagsGo, List.mem_reverse] at hc
    exact Or.inl hc
  | cons a rest ih =>
    intro buf c hc
    cases buf with
    | nil =>
      by_cases ha : a = '<'
      · simp only [stripTagsGo, ha, if_pos rfl] at hc
        rcases ih _ _ hc with h | h
        · simp only [List.mem_singleton] at h
          exact Or.inr (by simp [h, ha])
        · exact Or.inr (List.mem_cons_of_mem _ h)
      · simp only [stripTagsGo, if_neg ha, List.mem_cons] at hc
        rcases hc with rfl | hc
        · exact Or.inr (List.mem_cons_self _ _)
        · rcases ih _ _ hc with h | h
          · exact absurd h (List.not_mem_nil c)
          · exact Or.inr (List.mem_cons_of_mem _ h)
    | cons b bs =>
      by_cases hgt : a = '>'
      · simp only [stripTagsGo, if_pos hgt] at hc
        rcases ih _ _ hc with h | h
        · exact absurd h (List.not_mem_nil c)
        · exact Or.inr (List.mem_cons_of_mem _ h)
      · by_cases hnl : a = '\n'
        · simp only [stripTagsGo, if_neg hgt, if_pos hnl, List.mem_append,
            List.mem_reverse, List.mem_cons] at hc
          rcases hc with h | h | h
          · exact Or.inl (List.mem_cons.mpr h)
          · exact Or.inr (by simp [h, hnl])
          · rcases ih _ _ h with h2 | h2
            · exact absurd h2 (List.not_mem_nil c)
            · exact Or.inr (List.mem_cons_of_mem _ h2)
        · simp only [stripTagsGo, if_neg hgt, if_neg hnl] at hc
          rcases ih _ _ hc with h | h
          · rcases List.mem_cons.mp h with rfl | h2
            · exact Or.inr (List.mem_cons_self _ _)
            · exact Or.inl h2
          · exact Or.inr (List.mem_cons_of_mem _ h)

/-- When the remaining input has no '>' and no newline, the tag scanner
simply flushes its buffer and copies the input. -/
theorem stripTagsGo_run :
    ∀ (l : List Char) (b : Char) (bs : List Char), '>' ∉ l → '\n' ∉ l →
      stripTagsGo (b :: bs) l = (b :: bs).reverse ++ l := by
  intro l
  induction l with
  | nil => intro b bs _ _; simp [stripTagsGo]
  | cons a rest ih =>
    intro b bs hgt hnl
    have ha1 : ¬ a = '>' := fun h => hgt (by simp [h])
    have ha2 : ¬ a = '\n' := fun h => hnl (by simp [h])
    have hgt' : '>' ∉ rest := fun h => hgt (List.mem_cons_of_mem _ h)
    have hnl' : '\n' ∉ rest := fun h => hnl (List.mem_cons_of_mem _ h)
    simp only [stripTagsGo, if_neg ha1, if_neg ha2]
    rw [ih (a) (b :: bs) hgt' hnl']
    simp

/-- With no newline in the input and no '>' in the buffer, the output of
the tag scanner is tag-free: every surviving '<' has no '>' after it. -/
theorem tagFree_stripTagsGo :
    ∀ (l buf : List Char), '\n' ∉ l → '>' ∉ buf → tagFree (stripTagsGo buf l) := by
  intro l
  induction l with
  | nil =>
    intro buf _ hbuf
    simp only [stripTagsGo]
    exact tagFree_of_no_gt (fun h => hbuf (List.mem_reverse.mp h))
  | cons a rest ih =>
    intro buf hnl hbuf
    have hnl' : '\n' ∉ rest := fun h => hnl (List.mem_cons_of_mem _ h)
    have hanl : ¬ a = '\n' := fun h => hnl (by simp [h])
    cases buf with
    | nil =>
      by_cases ha : a = '<'
      · simp only [stripTagsGo, if_pos ha]
        exact ih ['<'] hnl' (by decide)
      · simp only [stripTagsGo, if_neg ha]
        refine List.pairwise_cons.mpr ⟨fun b _ => ?_, ih [] hnl' (by simp)⟩
        intro hlt
        exact absurd hlt ha
    | cons b bs =>
      by_cases hgt : a = '>'
      · simp only [stripTagsGo, if_pos hgt]
        exact ih [] hnl' (by simp)
      · simp only [stripTagsGo, if_neg hgt, if_neg hanl]
        exact ih (a :: b :: bs) hnl'
          (fun h => by
            rcases List.mem_cons.mp h with h1 | h1
            · exact hgt h1.symm
            · exact hbuf h1)

/-- A tag-free input with no newline passes through the tag scanner
unchanged. -/
theorem stripTagsGo_id :
    ∀ l : List Char, '\n' ∉ l → tagFree l → stripTagsGo [] l = l := by
  intro l
  induction l with
  | nil => intro _ _; rfl
  | cons a rest ih =>
    intro hnl htf
    have hnl' : '\n' ∉ rest := fun h => hnl (List.mem_cons_of_mem _ h)
    rcases List.pairwise_cons.mp htf with ⟨hhead, htail⟩
    by_cases ha : a = '<'
    · simp only [stripTagsGo, if_pos ha]
      have hgt : '>' ∉ rest := fun h => (hhead _ h ha) rfl
      cases rest with
      | nil => simp [stripTagsGo, ha]
      | cons r rs =>
        rw [stripTagsGo_run (r :: rs) '<' [] hgt hnl']
        simp [ha]
    · simp only [stripTagsGo, if_neg ha]
      rw [ih hnl' htail]

theorem mem_collapseGo :
    ∀ (l : List Char) (b : Bool) (c : Char), c ∈ collapseGo b l → c = ' ' ∨ c ∈ l := by
  intro l
  induction l with
  | nil => intro b c hc; simp [collapseGo] at hc
  | cons a rest ih =>
    intro b c hc
    by_cases ha : isPySpace a
    · simp only [collapseGo, if_pos ha] at hc
      cases b with
      | true =>
        rcases ih _ _ hc with h | h
        · exact Or.inl h
        · exact Or.inr (List.mem_cons_of_mem _ h)
      | false =>
        rcases List.mem_cons.mp hc with rfl | h
        · exact Or.inl rfl
        · rcases ih _ _ h with h2 | h2
          · exact Or.inl h2
          · exact Or.inr (List.mem_cons_of_mem _ h2)
    · simp only [collapseGo, if_neg ha, List.mem_cons] at hc
      rcases hc with rfl | h
      · exact Or.inr (List.mem_cons_self _ _)
      · rcases ih _ _ h with h2 | h2
        · exact Or.inl h2
        · exact Or.inr (List.mem_cons_of_mem _ h2)

/-- Every whitespace character in the output of the collapse pass is a
plain space. -/
theorem space_collapseGo :
    ∀ (l : List Char) (b : Bool) (c : Char),
      c ∈ collapseGo b l → isPySpace c → c = ' ' := by
  intro l
  induction l with
  | nil => intro b c hc; simp [collapseGo] at hc
  | cons a rest ih =>
    intro b c hc hsp
    by_cases ha : isPySpace a
    · simp only [collapseGo, if_pos ha] at hc
      cases b with
      | true => exact ih _ _ hc hsp
      | false =>
        rcases List.mem_cons.mp hc with rfl | h
        · rfl
        · exact ih _ _ h hsp
    · simp only [collapseGo, if_neg ha, List.mem_cons] at hc
      rcases hc with rfl | h
      · exact absurd hsp ha
      · exact ih _ _ h hsp

/-- The collapse pass preserves tag-freedom (it only inserts spaces). -/
theorem tagFree_collapseGo :
    ∀ (l : List Char) (b : Bool), tagFree l → tagFree (collapseGo b l) := by
  intro l
  induction l with
  | nil => intro b _; simp [collapseGo, tagFree]
  | cons a rest ih =>
    intro b htf
    rcases List.pairwise_cons.mp htf with ⟨hhead, htail⟩
    by_cases ha : isPySpace a
    · simp only [collapseGo, if_pos ha]
      cases b with
      | true => exact ih _ htail
      | false =>
        refine List.pairwise_cons.mpr ⟨fun x _ hlt => absurd hlt.symm (by decide), ih _ htail⟩
    · simp only [collapseGo, if_neg ha]
      refine List.pairwise_cons.mpr ⟨fun x hx hlt => ?_, ih _ htail⟩
      rcases mem_collapseGo _ _ _ hx with rfl | hxm
      · exact fun h => absurd h.symm (by decide)
      · exact hhead x hxm hlt

/-- Skipping whitespace in the collapse pass is the same as collapsing
what remains after dropping that whitespace. -/
theorem collapseGo_true_eq :
    ∀ l : List Char, collapseGo true l = collapseGo false (l.dropWhile isPySpace) := by
  intro l
  induction l with
  | nil => rfl
  | cons a rest ih =>
    by_cases ha : isPySpace a
    · simp [collapseGo, List.dropWhile_cons, ha, ih]
    · simp [collapseGo, List.dropWhile_cons, ha]

/-- No two adjacent whitespace characters. -/
def noSpaceRun (l : List Char) : Prop :=
  l.Chain' (fun a b => ¬(isPySpace a = true ∧ isPySpace b = true))

theorem dropWhile_head_not {p : Char → Bool} :
    ∀ (l : List Char) (c : Char), (l.dropWhile p).head? = some c → p c = false := by
  intro l
  induction l with
  | nil => intro c hc; simp at hc
  | cons a rest ih =>
    intro c hc
    by_cases ha : p a
    · rw [List.dropWhile_cons, if_pos ha] at hc
      exact ih c hc
    · rw [List.dropWhile_cons, if_neg ha] at hc
      simp only [List.head?_cons, Option.some.injEq] at hc
      rw [← hc]
      simpa using ha

theorem head_collapse_dropWhile :
    ∀ (l : List Char) (c : Char),
      (collapseGo false (l.dropWhile isPySpace)).head? = some c → isPySpace c = false := by
  intro l
  induction l with
  | nil => intro c hc; simp [collapseGo] at hc
  | cons a rest ih =>
    intro c hc
    by_cases ha : isPySpace a
    · rw [List.dropWhile_cons, if_pos ha] at hc
      exact ih c hc
    · rw [List.dropWhile_cons, if_neg ha] at hc
      simp only [collapseGo, if_neg ha, List.head?_cons, Option.some.injEq] at hc
      rw [← hc]
      simpa using ha

/-- The collapse pass never emits two adjacent whitespace characters. -/
theorem noSpaceRun_collapse : ∀ l : List Char, noSpaceRun (collapseGo false l)
  | [] => by simp [collapseGo, noSpaceRun]
  | a :: rest => by
    by_cases ha : isPySpace a
    · simp only [noSpaceRun, collapseGo, if_pos ha, Bool.false_eq_true, if_false]
      rw [collapseGo_true_eq]
      have hrec := noSpaceRun_collapse (rest.dropWhile isPySpace)
      refine List.chain'_cons'.mpr ⟨?_, hrec⟩
      intro y hy hcontra
      have hns : isPySpace y = false :=
        head_collapse_dropWhile rest y (Option.mem_def.mp hy)
      rw [hns] at hcontra
      exact absurd hcontra.2 (by simp)
    · simp only [noSpaceRun, collapseGo, if_neg ha]
      have hrec := noSpaceRun_collapse rest
      refine List.chain'_cons'.mpr ⟨?_, hrec⟩
      intro y _ hcontra
      exact absurd hcontra.1 (by simp [ha])
termination_by l => l.length
decreasing_by
  · simp only [List.length_cons]
    exact Nat.lt_succ_of_le ((List.dropWhile_suffix _).sublist.length_le)
  · simp [Nat.lt_succ_self]

/-- On a list with no whitespace runs and only plain spaces as
whitespace, the collapse pass is the identity. -/
theorem collapseGo_false_id :
    ∀ l : List Char, noSpaceRun l → (∀ c ∈ l, isPySpace c → c = ' ') →
      collapseGo false l = l := by
  intro l
  induction l with
  | nil => intro _ _; rfl
  | cons a rest ih =>
    intro hrun honly
    rcases List.chain'_cons'.mp hrun with ⟨hhead, htail⟩
    have honly' : ∀ c ∈ rest, isPySpace c → c = ' ' :=
      fun c hc => honly c (List.mem_cons_of_mem _ hc)
    by_cases ha : isPySpace a
    · have ha' : a = ' ' := honly a (List.mem_cons_self _ _) ha
      subst ha'
      simp only [collapseGo, if_pos ha]
      cases rest with
      | nil => simp [collapseGo]
      | cons r rs =>
        have hr : isPySpace r = false := by
          have := hhead r (by simp)
          by_contra hcon
          exact this ⟨ha, by simpa using hcon⟩
        simp only [collapseGo, hr, Bool.false_eq_true, if_false]
        have := ih htail honly'
        simp only [collapseGo, hr, Bool.false_eq_true, if_false] at this
        rw [this]
    · simp only [collapseGo, if_neg ha]
      rw [ih htail honly']

theorem noSpaceRun_reverse {l : List Char} (h : noSpaceRun l) : noSpaceRun l.reverse :=
  List.chain'_reverse.mpr (h.imp fun _ _ hab hc => hab ⟨hc.2, hc.1⟩)

theorem stripEnds_sublist (l : List Char) : (stripEnds l).Sublist l := by
  have h1 : (l.dropWhile isPySpace).Sublist l := (List.dropWhile_suffix _).sublist
  have h2 : ((l.dropWhile isPySpace).reverse.dropWhile isPySpace).Sublist
      (l.dropWhile isPySpace).reverse := (List.dropWhile_suffix _).sublist
  have h3 := h2.reverse
  rw [List.reverse_reverse] at h3
  exact h3.trans h1

theorem stripEnds_head {l : List Char} {c : Char}
    (h : (stripEnds l).head? = some c) : isPySpace c = false := by
  unfold stripEnds at h
  rw [List.head?_reverse] at h
  set m2 := (l.dropWhile isPySpace).reverse with hm2
  have hne : m2.dropWhile isPySpace ≠ [] := by
    intro hcon
    rw [hcon] at h
    simp at h
  obtain ⟨t, ht⟩ := (List.dropWhile_suffix isPySpace : m2.dropWhile isPySpace <:+ m2)
  have happ := List.getLast?_append_of_ne_nil t hne
  rw [ht] at happ
  have h2 : m2.getLast? = some c := happ.trans h
  rw [hm2, List.getLast?_reverse] at h2
  exact dropWhile_head_not l c h2

theorem stripEnds_last {l : List Char} {c : Char}
    (h : (stripEnds l).getLast? = some c) : isPySpace c = false := by
  unfold stripEnds at h
  rw [List.getLast?_reverse] at h
  exact dropWhile_head_not _ c h

theorem dropWhile_id_of_head {p : Char → Bool} {l : List Char}
    (h : ∀ c, l.head? = some c → p c = false) : l.dropWhile p = l := by
  cases l with
  | nil => rfl
  | cons a rest =>
    rw [List.dropWhile_cons, if_neg (by simp [h a rfl])]

theorem stripEnds_id {l : List Char}
    (hh : ∀ c, l.head? = some c → isPySpace c = false)
    (hl : ∀ c, l.getLast? = some c → isPySpace c = false) : stripEnds l = l := by
  unfold stripEnds
  rw [dropWhile_id_of_head hh]
  rw [dropWhile_id_of_head (fun c hc => hl c (by rwa [List.head?_reverse] at hc))]
  exact List.reverse_reverse l

theorem mem_replaceMoji : ∀ (l : List Char) (c : Char), c ∈ replaceMoji l → c ∈ l ∨ c = apos
  | [], c, h => by simp [replaceMoji] at h
  | [a], c, h => by
    simp only [replaceMoji] at h
    rcases List.mem_cons.mp h with rfl | h2
    · exact Or.inl (by simp)
    · simp [replaceMoji] at h2
  | [a, b], c, h => by
    simp only [replaceMoji] at h
    rcases List.mem_cons.mp h with rfl | h2
    · exact Or.inl (by simp)
    · rcases mem_replaceMoji [b] c h2 with h3 | h3
      · exact Or.inl (List.mem_cons_of_mem _ h3)
      · exact Or.inr h3
  | a :: b :: d :: rest, c, h => by
    rw [replaceMoji] at h
    split at h
    · rcases List.mem_cons.mp h with rfl | h2
      · exact Or.inr rfl
      · rcases mem_replaceMoji rest c h2 with h3 | h3
        · exact Or.inl (by simp [h3])
        · exact Or.inr h3
    · rcases List.mem_cons.mp h with rfl | h2
      · exact Or.inl (by simp)
      · rcases mem_replaceMoji (b :: d :: rest) c h2 with h3 | h3
        · exact Or.inl (List.mem_cons_of_mem _ h3)
        · exact Or.inr h3

theorem replaceMoji_id : ∀ l : List Char, mojiA ∉ l → replaceMoji l = l
  | [], _ => rfl
  | [a], h => by simp [replaceMoji]
  | [a, b], h => by simp [replaceMoji]
  | a :: b :: d :: rest, h => by
    rw [replaceMoji, if_neg, replaceMoji_id (b :: d :: rest) (fun hc => h (List.mem_cons_of_mem _ hc))]
    intro hcon
    exact h (by simp [hcon.1])

/-- Core idempotence result: on inputs with no newline and no occurrence
of the first mis-encoded-apostrophe character, cleaning twice equals
cleaning once. -/
theorem cleanChars_idem {l : List Char} (hnl : '\n' ∉ l) (hmj : mojiA ∉ l) :
    cleanChars (cleanChars l) = cleanChars l := by
  have hnlr : '\n' ∉ replaceMoji l := by
    intro h
    rcases mem_replaceMoji l _ h with h2 | h2
    · exact hnl h2
    · exact absurd h2 (by decide)
  have htf_t : tagFree (stripTags (replaceMoji l)) :=
    tagFree_stripTagsGo (replaceMoji l) [] hnlr (by simp)
  have htf_m : tagFree (collapse (stripTags (replaceMoji l))) :=
    tagFree_collapseGo _ false htf_t
  have hmem_y : ∀ c ∈ cleanChars l, c = ' ' ∨ c ∈ l ∨ c = apos := by
    intro c hc
    have hc1 : c ∈ collapse (stripTags (replaceMoji l)) :=
      (stripEnds_sublist _).subset hc
    rcases mem_collapseGo _ _ _ hc1 with h | h
    · exact Or.inl h
    · rcases mem_stripTagsGo _ _ _ h with h2 | h2
      · exact absurd h2 (List.not_mem_nil c)
      · rcases mem_replaceMoji _ _ h2 with h3 | h3
        · exact Or.inr (Or.inl h3)
        · exact Or.inr (Or.inr h3)
  have honly_y : ∀ c ∈ cleanChars l, isPySpace c → c = ' ' := by
    intro c hc hsp
    exact space_collapseGo _ _ _ ((stripEnds_sublist _).subset hc) hsp
  have hnl_y : '\n' ∉ cleanChars l := by
    intro h
    have := honly_y '\n' h (by decide)
    exact absurd this (by decide)
  have hmj_y : mojiA ∉ cleanChars l := by
    intro h
    rcases hmem_y mojiA h with h2 | h2 | h2
    · exact absurd h2 (by decide)
    · exact hmj h2
    · exact absurd h2 (by decide)
  have htf_y : tagFree (cleanChars l) :=
    List.Pairwise.sublist (stripEnds_sublist _) htf_m
  have hrun_y : noSpaceRun (cleanChars l) := by
    have h1 : noSpaceRun (collapse (stripTags (replaceMoji l))) := noSpaceRun_collapse _
    have h2 := h1.suffix (List.dropWhile_suffix isPySpace)
    have h3 := noSpaceRun_reverse h2
    have h4 := h3.suffix (List.dropWhile_suffix isPySpace)
    exact noSpaceRun_reverse h4
  show stripEnds (collapse (stripTags (replaceMoji (cleanChars l)))) = cleanChars l
  rw [replaceMoji_id _ hmj_y]
  rw [show stripTags (cleanChars l) = cleanChars l from stripTagsGo_id _ hnl_y htf_y]
  rw [show collapse (cleanChars l) = cleanChars l from
    collapseGo_false_id _ hrun_y honly_y]
  exact stripEnds_id (fun c hc => stripEnds_head hc) (fun c hc => stripEnds_last hc)

/-- C2 counterexample: the normalizer is not idempotent.  On the input
"<a\n\nb>" the tag pattern matches nothing (the lazy dot does not cross
a newline), but whitespace collapsing turns the string into "<a b>",
which a second application strips to "".  So clean(clean(x)) differs
from clean(x) at x = "<a\n\nb>". -/
theorem clean_text_not_idempotent :
    clean_text (clean_text "<a\n\nb>") ≠ clean_text "<a\n\nb>" := by
  decide

/-- C2 (amended): the normalizer is idempotent on every string that
contains no newline character and no occurrence of U+00E2 (the first
character of the mis-encoded apostrophe sequence).  A newline lets the
whitespace-collapse pass complete a tag shape that the tag pass could
not match, and a removed tag can splice the mis-encoded apostrophe
sequence together; on all other strings clean(clean(x)) = clean(x). -/
theorem clean_text_idempotent_of_no_newline_no_moji (s : String)
    (h1 : '\n' ∉ s.toList) (h2 : mojiA ∉ s.toList) :
    clean_text (clean_text s) = clean_text s := by
  show (⟨cleanChars (clean_text s).toList⟩ : String) = ⟨cleanChars s.toList⟩
  have h : (clean_text s).toList = cleanChars s.toList := rfl
  rw [h, cleanChars_idem h1 h2]

/-- Witness for the amended C2 theorem at a concrete input. -/
theorem clean_text_idempotent_witness :
    ('\n' ∉ "A  &amp; <b>B".toList) ∧ (mojiA ∉ "A  &amp; <b>B".toList) ∧
      clean_text (clean_text "A  &amp; <b>B") = clean_text "A  &amp; <b>B" :=
  ⟨by decide, by decide,
    clean_text_idempotent_of_no_newline_no_moji "A  &amp; <b>B" (by decide) (by decide)⟩

/-- C3: the spec expects clean("A &amp; B <b>bold</b>\n\n  text") =
"A & B bold text", but the entity-decoding replace calls of the source
replace each character with itself and decode nothing, so the code
returns "A &amp; B bold text" (tags stripped and whitespace collapsed,
ampersand entity left intact). -/
theorem clean_text_amp_not_decoded :
    clean_text "A &amp; B <b>bold</b>\n\n  text" = "A &amp; B bold text" ∧
      clean_text "A &amp; B <b>bold</b>\n\n  text" ≠ "A & B bold text" := by
  constructor
  · rfl
  · decide

/- ===================================================================
   Section 2: the Persistence Layer (pubmed_fetcher.py, store_articles,
   lines 185-205).

   The durable store is modelled as the list of committed Article rows,
   in insertion order.  For each input record, in order: a falsy pmid
   (None or "") is counted skipped; otherwise the session is queried by
   id — with SQLAlchemy's default autoflush the query sees both
   committed rows and the rows staged earlier in the same batch — and a
   hit is counted skipped, a miss stages a new row.  After the loop a
   single session.commit() persists the whole staged batch; on a commit
   exception session.rollback() discards it entirely.  The commit
   outcome is passed as an explicit boolean.  The per-record
   `except Exception` at line 200 can only fire on database errors,
   which the pure model does not produce, so error_count stays 0.
   ================================================================= -/

/-- An enriched record as handed to store_articles: a Python dict whose
fields may be absent (dict.get supplies defaults at staging time). -/
structure EnrichedRecord where
  pmid : Option String
  title : Option String
  abstract : Option String
  pub_date : Option String
  keywords : Option (List String)
  summary : Option String
deriving DecidableEq, Repr

/-- A durable row of the articles table (the SQLAlchemy Article model). -/
structure Article where
  id : String
  title : String
  abstract : String
  pub_date : String
  keywords : List String
  summary : String
deriving DecidableEq, Repr

/-- The row built for a fresh pmid, with the dict.get defaults of
pubmed_fetcher.py line 197. -/
def mkArticle (p : String) (r : EnrichedRecord) : Article :=
  { id := p
    title := r.title.getD "N/A"
    abstract := r.abstract.getD "N/A"
    pub_date := r.pub_date.getD "N/A"
    keywords := r.keywords.getD []
    summary := r.summary.getD "N/A" }

/-- session.query(Article).filter_by(id=pmid).first() is not None. -/
def hasId (db : List Article) (p : String) : Bool :=
  db.any (fun a => a.id == p)

/-- Mutable state of the staging loop: rows staged so far and the three
counters. -/
structure StoreState where
  staged : List Article
  stored : Nat
  skipped : Nat
  errors : Nat
deriving DecidableEq, Repr

/-- One iteration of the staging loop of store_articles (lines 190-200):
skip on falsy pmid, skip on existing id (committed or staged), else
stage a new row. -/
def stageOne (db : List Article) (st : StoreState) (r : EnrichedRecord) : StoreState :=
  match r.pmid with
  | none => { st with skipped := st.skipped + 1 }
  | some p =>
    if p = "" then { st with skipped := st.skipped + 1 }
    else if hasId (db ++ st.staged) p then { st with skipped := st.skipped + 1 }
    else { st with staged := st.staged ++ [mkArticle p r], stored := st.stored + 1 }

/-- The whole staging loop over the input records. -/
def stageAll (recs : List EnrichedRecord) (db : List Article) : StoreState :=
  recs.foldl (stageOne db) ⟨[], 0, 0, 0⟩

/-- Result of a store_articles run: the durable store after the run,
the reported counters, and whether the single commit succeeded. -/
structure StoreResult where
  db : List Article
  stored : Nat
  skipped : Nat
  errors : Nat
  committed : Bool
deriving DecidableEq, Repr

/-- store_articles (lines 185-205): stage every record, then one
session.commit() of the batch; on commit failure session.rollback()
leaves the durable store untouched. -/
def store_articles (recs : List EnrichedRecord) (db : List Article)
    (commitOk : Bool) : StoreResult :=
  let st := stageAll recs db
  if commitOk then ⟨db ++ st.staged, st.stored, st.skipped, st.errors, true⟩
  else ⟨db, st.stored, st.skipped, st.errors, false⟩

/-- The identifier-uniqueness invariant of the durable store. -/
def uniqueIds (db : List Article) : Prop := (db.map Article.id).Nodup

/-- A sequence of store_articles runs (each with its commit outcome)
starting from the empty store. -/
def runBatches (batches : List (List EnrichedRecord × Bool)) : List Article :=
  batches.foldl (fun db b => (store_articles b.1 db b.2).db) []

theorem hasId_iff {db : List Article} {p : String} :
    hasId db p = true ↔ ∃ a ∈ db, a.id = p := by
  simp [hasId, List.any_eq_true, beq_iff_eq]

theorem hasId_false_iff {db : List Article} {p : String} :
    hasId db p = false ↔ ∀ a ∈ db, a.id ≠ p := by
  simp [hasId, List.any_eq_false, beq_iff_eq]

theorem hasId_append {db1 db2 : List Article} {p : String} :
    hasId (db1 ++ db2) p = (hasId db1 p || hasId db2 p) := by
  simp [hasId, List.any_append]

/-- Staging invariant: if the already-staged rows have pairwise distinct
identifiers, none of which is in the durable store, the same holds after
processing any further records. -/
theorem stageAll_invariant (db : List Article) :
    ∀ (recs : List EnrichedRecord) (st : StoreState),
      ((st.staged.map Article.id).Nodup ∧ ∀ a ∈ st.staged, hasId db a.id = false) →
      (((recs.foldl (stageOne db) st).staged.map Article.id).Nodup ∧
        ∀ a ∈ (recs.foldl (stageOne db) st).staged, hasId db a.id = false) := by
  intro recs
  induction recs with
  | nil => intro st h; exact h
  | cons r rest ih =>
    intro st h
    rcases h with ⟨h1, h2⟩
    rw [List.foldl_cons]
    apply ih
    cases hr : r.pmid with
    | none => exact ⟨by simpa [stageOne, hr] using h1, by simpa [stageOne, hr] using h2⟩
    | some p =>
      by_cases hp : p = ""
      · exact ⟨by simpa [stageOne, hr, hp] using h1, by simpa [stageOne, hr, hp] using h2⟩
      · by_cases hdup : hasId (db ++ st.staged) p
        · exact ⟨by simpa [stageOne, hr, hp, hdup] using h1,
                 by simpa [stageOne, hr, hp, hdup] using h2⟩
        · have hfresh : hasId db p = false ∧ hasId st.staged p = false := by
            have := hdup
            rw [Bool.not_eq_true, hasId_append, Bool.or_eq_false_iff] at this
            exact this
          constructor
          · simp only [stageOne, hr, hp, hdup]
            simp only [if_neg hp, Bool.false_eq_true, if_false]
            rw [List.map_append, List.nodup_append]
            refine ⟨h1, by simp [mkArticle], ?_⟩
            intro x hx hy
            simp only [List.map_cons, List.map_nil, List.mem_singleton, mkArticle] at hy
            subst hy
            rcases List.mem_map.mp hx with ⟨a, ha, haid⟩
            exact (hasId_false_iff.mp hfresh.2 a ha) haid
          · simp only [stageOne, hr, hp, hdup]
            simp only [if_neg hp, Bool.false_eq_true, if_false]
            intro a ha
            rcases List.mem_append.mp ha with h3 | h3
            · exact h2 a h3
            · simp only [List.mem_singleton] at h3
              subst h3
              simpa [mkArticle] using hfresh.1

/-- The staging loop only appends to the staged list. -/
theorem stageAll_mono (db : List Article) :
    ∀ (recs : List EnrichedRecord) (st : StoreState),
      ∃ t, (recs.foldl (stageOne db) st).staged = st.staged ++ t := by
  intro recs
  induction recs with
  | nil => intro st; exact ⟨[], by simp⟩
  | cons r rest ih =>
    intro st
    rw [List.foldl_cons]
    rcases ih (stageOne db st r) with ⟨t, ht⟩
    cases hr : r.pmid with
    | none => exact ⟨t, by simpa [stageOne, hr] using ht⟩
    | some p =>
      by_cases hp : p = ""
      · exact ⟨t, by simpa [stageOne, hr, hp] using ht⟩
      · by_cases hdup : hasId (db ++ st.staged) p
        · exact ⟨t, by simpa [stageOne, hr, hp, hdup] using ht⟩
        · refine ⟨mkArticle p r :: t, ?_⟩
          rw [ht]
          simp [stageOne, hr, hp, hdup]

/-- After the staging loop, the identifier of every input record with a
truthy pmid is present either in the durable store or among the staged
rows. -/
theorem stageAll_covers (db : List Article) :
    ∀ (recs : List EnrichedRecord) (st : StoreState) (r : EnrichedRecord),
      r ∈ recs → ∀ p, r.pmid = some p → p ≠ "" →
      hasId (db ++ (recs.foldl (stageOne db) st).staged) p = true := by
  intro recs
  induction recs with
  | nil => intro st r hr; exact absurd hr (List.not_mem_nil r)
  | cons r0 rest ih =>
    intro st r hr p hp hpne
    rw [List.foldl_cons]
    rcases List.mem_cons.mp hr with rfl | hmem
    · -- the record processed at this step
      rcases stageAll_mono db rest (stageOne db st r) with ⟨t, ht⟩
      rw [hasId_append, ht, hasId_append, Bool.or_eq_true]
      by_cases hdup : hasId (db ++ st.staged) p
      · have hst : (stageOne db st r).staged = st.staged := by
          simp [stageOne, hp, hpne, hdup]
        rw [hst]
        rw [hasId_append, Bool.or_eq_true] at hdup
        rcases hdup with h | h
        · exact Or.inl h
        · exact Or.inr (by rw [h]; simp)
      · have hst : (stageOne db st r).staged = st.staged ++ [mkArticle p r] := by
          simp [stageOne, hp, hpne, hdup]
        rw [hst]
        refine Or.inr ?_
        rw [hasId_append]
        have hone : hasId [mkArticle p r] p = true := by simp [hasId, mkArticle]
        rw [hone]
        simp
    · exact ih (stageOne db st r0) r hmem p hp hpne

theorem store_articles_true_db (recs : List EnrichedRecord) (db : List Article) :
    (store_articles recs db true).db = db ++ (stageAll recs db).staged := rfl

theorem store_articles_false_db (recs : List EnrichedRecord) (db : List Article) :
    (store_articles recs db false).db = db := rfl

/-- store_articles preserves identifier uniqueness of the store. -/
theorem uniqueIds_store {db : List Article} (recs : List EnrichedRecord)
    (ok : Bool) (h : uniqueIds db) : uniqueIds (store_articles recs db ok).db := by
  cases ok with
  | false => rw [store_articles_false_db]; exact h
  | true =>
    have hinv := stageAll_invariant db recs ⟨[], 0, 0, 0⟩ (by simp)
    rw [store_articles_true_db]
    simp only [uniqueIds, stageAll] at *
    rw [List.map_append, List.nodup_append]
    refine ⟨h, hinv.1, ?_⟩
    intro x hx hy
    rcases List.mem_map.mp hy with ⟨a, ha, haid⟩
    have := hasId_false_iff.mp (hinv.2 a ha)
    rcases List.mem_map.mp hx with ⟨b2, hb2, hb2id⟩
    exact this b2 hb2 (by rw [hb2id, ← haid])

theorem uniqueIds_runBatches (batches : List (List EnrichedRecord × Bool)) :
    uniqueIds (runBatches batches) := by
  suffices h : ∀ (bs : List (List EnrichedRecord × Bool)) (db : List Article),
      uniqueIds db → uniqueIds (bs.foldl (fun d b => (store_articles b.1 d b.2).db) db) by
    exact h batches [] (by simp [uniqueIds])
  intro bs
  induction bs with
  | nil => intro db h; exact h
  | cons b rest ih =>
    intro db h
    rw [List.foldl_cons]
    exact ih _ (uniqueIds_store b.1 b.2 h)

/-- C1: durable-store uniqueness and skip-on-exists.  After any sequence
of store_articles runs starting from an empty store, the store holds at
most one row per identifier; and for any further run, every row already
present is still present afterwards, and any row of the resulting store
carrying an already-present identifier is exactly the old row — its
fields, title included, are unchanged (skip, never overwrite). -/
theorem store_uniqueness_skip_invariant (batches : List (List EnrichedRecord × Bool)) :
    uniqueIds (runBatches batches) ∧
    ∀ (recs : List EnrichedRecord) (ok : Bool) (a : Article),
      a ∈ runBatches batches →
      a ∈ (store_articles recs (runBatches batches) ok).db ∧
      ∀ b ∈ (store_articles recs (runBatches batches) ok).db, b.id = a.id → b = a := by
  have hu : uniqueIds (runBatches batches) := uniqueIds_runBatches batches
  refine ⟨hu, ?_⟩
  intro recs ok a ha
  cases ok with
  | false =>
    rw [store_articles_false_db]
    refine ⟨ha, ?_⟩
    intro b hb hid
    exact List.inj_on_of_nodup_map hu hb ha hid
  | true =>
    rw [store_articles_true_db]
    refine ⟨List.mem_append_left _ ha, ?_⟩
    intro b hb hid
    rcases List.mem_append.mp hb with h | h
    · exact List.inj_on_of_nodup_map hu h ha hid
    · exfalso
      have hinv := stageAll_invariant (runBatches batches) recs ⟨[], 0, 0, 0⟩ (by simp)
      have := hasId_false_iff.mp (hinv.2 b h)
      exact this a ha (by rw [← hid])

/-- Witness for C1 at a concrete run: one batch stores a record with
identifier "1"; re-storing identifier "1" with a different title leaves
the stored row unchanged. -/
theorem store_uniqueness_skip_witness :
    uniqueIds (runBatches [([⟨some "1", some "old title", none, none, none, none⟩], true)]) ∧
      (mkArticle "1" ⟨some "1", some "old title", none, none, none, none⟩ ∈
        (store_articles [⟨some "1", some "new title", none, none, none, none⟩]
          (runBatches [([⟨some "1", some "old title", none, none, none, none⟩], true)]) true).db ∧
      ∀ b ∈ (store_articles [⟨some "1", some "new title", none, none, none, none⟩]
          (runBatches [([⟨some "1", some "old title", none, none, none, none⟩], true)]) true).db,
        b.id = (mkArticle "1" ⟨some "1", some "old title", none, none, none, none⟩).id →
        b = mkArticle "1" ⟨some "1", some "old title", none, none, none, none⟩) :=
  ⟨(store_uniqueness_skip_invariant
      [([⟨some "1", some "old title", none, none, none, none⟩], true)]).1,
   (store_uniqueness_skip_invariant
      [([⟨some "1", some "old title", none, none, none, none⟩], true)]).2
      [⟨some "1", some "new title", none, none, none, none⟩] true
      (mkArticle "1" ⟨some "1", some "old title", none, none, none, none⟩)
      (by decide)⟩

/-- If every truthy identifier of the input is already in the store,
staging stages nothing and skips every record. -/
theorem stageAll_all_dup (db : List Article) :
    ∀ (recs : List EnrichedRecord) (st : StoreState), st.staged = [] →
      (∀ r ∈ recs, ∀ p, r.pmid = some p → p ≠ "" → hasId db p = true) →
      recs.foldl (stageOne db) st =
        ⟨[], st.stored, st.skipped + recs.length, st.errors⟩ := by
  intro recs
  induction recs with
  | nil =>
    intro st hst _
    cases st with
    | mk staged stored skipped errors =>
      simp only at hst
      subst hst
      simp
  | cons r rest ih =>
    intro st hst hall
    rw [List.foldl_cons]
    have hstep : stageOne db st r = { st with skipped := st.skipped + 1 } := by
      cases hr : r.pmid with
      | none => simp [stageOne, hr]
      | some p =>
        by_cases hp : p = ""
        · simp [stageOne, hr, hp]
        · have hdup : hasId (db ++ st.staged) p = true := by
            rw [hst]
            simpa using hall r (List.mem_cons_self _ _) p hr hp
          simp [stageOne, hr, hp, hdup]
    rw [hstep]
    rw [ih { st with skipped := st.skipped + 1 } (by simpa using hst)
      (fun r2 h2 => hall r2 (List.mem_cons_of_mem _ h2))]
    simp only [List.length_cons]
    congr 1
    omega

/-- C7: store idempotence.  Running store_articles a second time with
the same input, after a first run whose commit succeeded, classifies
every record as skipped (stored = 0, skipped = number of records) and
leaves the durable row list exactly as after the first run. -/
theorem store_idempotent (recs : List EnrichedRecord) (db : List Article) :
    (store_articles recs (store_articles recs db true).db true).db
        = (store_articles recs db true).db ∧
    (store_articles recs (store_articles recs db true).db true).stored = 0 ∧
    (store_articles recs (store_articles recs db true).db true).skipped
        = recs.length := by
  have hcover : ∀ r ∈ recs, ∀ p, r.pmid = some p → p ≠ "" →
      hasId (store_articles recs db true).db p = true := by
    intro r hr p hp hpne
    rw [store_articles_true_db]
    exact stageAll_covers db recs ⟨[], 0, 0, 0⟩ r hr p hp hpne
  have hstage := stageAll_all_dup (store_articles recs db true).db recs
      ⟨[], 0, 0, 0⟩ rfl hcover
  refine ⟨?_, ?_, ?_⟩
  · rw [store_articles_true_db recs (store_articles recs db true).db]
    show (store_articles recs db true).db ++
        (recs.foldl (stageOne (store_articles recs db true).db) ⟨[], 0, 0, 0⟩).staged
      = (store_articles recs db true).db
    rw [hstage]
    simp
  · show (recs.foldl (stageOne (store_articles recs db true).db) ⟨[], 0, 0, 0⟩).stored = 0
    rw [hstage]
  · show (recs.foldl (stageOne (store_articles recs db true).db) ⟨[], 0, 0, 0⟩).skipped
      = recs.length
    rw [hstage]
    simp

/-- C8: commit atomicity.  store_articles stages the whole batch and
then issues a single commit: on success the durable store becomes
exactly the old rows followed by the staged batch; on a failed commit
the rollback leaves the durable store unchanged — a row is in the store
after a failed run exactly when it was there before (no partial
durability). -/
theorem store_commit_atomic (recs : List EnrichedRecord) (db : List Article) :
    (store_articles recs db false).db = db ∧
    (store_articles recs db false).committed = false ∧
    (∀ a : Article, a ∈ (store_articles recs db false).db ↔ a ∈ db) ∧
    (store_articles recs db true).db = db ++ (stageAll recs db).staged :=
  ⟨rfl, rfl, fun _ => Iff.rfl, rfl⟩

/- ===================================================================
   Section 3: the Detail Fetcher
   (pubmed_fetcher.py, fetch_article_details_with_abstract, lines
   97-130).

   The HTTP layer is modelled by handing the function the already-parsed
   XML root of the response body.  An ElementTree element carries a tag,
   attributes, optional text, optional tail text and a child list.
   The source navigates with find/findall/findtext on the paths
   './/PubmedArticle', './/MedlineCitation/PMID', './/ArticleTitle',
   './/Abstract/AbstractText', './/PubDate' and the child-level names
   'Year', 'Month', 'Day', 'MedlineDate'; a path starting with './/'
   selects among all proper descendants in document order, a bare name
   among direct children.  findtext returns None when no element
   matches and the element's text (with None read as "") otherwise.

   Per record: pmid may be None; a missing ArticleTitle degrades to
   "N/A"; the abstract concatenates the AbstractText sections, each
   non-empty Label rendered as a bolded prefix and each non-empty
   paragraph newline-terminated, then strips; the publication date
   prefers Year-Month-Day when all three are truthy, then a truthy
   MedlineDate, else "N/A".  A record whose PubDate ELEMENT is absent
   raises AttributeError (findtext on None); the surrounding
   try/except then returns [] for the whole batch — parseArticle
   returning none models that exception. -/

inductive XTree where
  | elem (tag : String) (attrs : List (String × String)) (text : Option String)
      (tail : Option String) (children : List XTree)

def XTree.tagOf : XTree → String
  | .elem t _ _ _ _ => t

def XTree.attrsOf : XTree → List (String × String)
  | .elem _ a _ _ _ => a

def XTree.textOf : XTree → Option String
  | .elem _ _ tx _ _ => tx

def XTree.tailOf : XTree → Option String
  | .elem _ _ _ tl _ => tl

def XTree.childrenOf : XTree → List XTree
  | .elem _ _ _ _ cs => cs

/-- element.get(key): attribute lookup. -/
def XTree.getAttr (x : XTree) (k : String) : Option String :=
  (x.attrsOf.find? (fun p => p.1 == k)).map (fun p => p.2)

mutual
/-- All proper descendants of an element, in document order. -/
def descendants : XTree → List XTree
  | .elem _ _ _ _ cs => descList cs
def descList : List XTree → List XTree
  | [] => []
  | c :: cs => c :: descendants c ++ descList cs
end

mutual
/-- "".join(element.itertext()): own text, then each child's itertext
followed by the child's tail. -/
def itertext : XTree → String
  | .elem _ _ tx _ cs => tx.getD "" ++ itertextList cs
def itertextList : List XTree → String
  | [] => ""
  | c :: cs => itertext c ++ c.tailOf.getD "" ++ itertextList cs
end

/-- findall('.//T'). -/
def findallDesc (x : XTree) (t : String) : List XTree :=
  (descendants x).filter (fun e => e.tagOf == t)

/-- find('.//T'). -/
def findDesc (x : XTree) (t : String) : Option XTree :=
  (findallDesc x t).head?

/-- find('T'): first direct child with the tag. -/
def findChild (x : XTree) (t : String) : Option XTree :=
  (x.childrenOf.filter (fun e => e.tagOf == t)).head?

/-- findtext('T'): text of the first matching child, None-text read as
"", None when no child matches. -/
def findtextChild (x : XTree) (t : String) : Option String :=
  (findChild x t).map (fun e => e.textOf.getD "")

/-- findall('.//T1/T2'): T2 children of every T1 descendant. -/
def findallDescChild (x : XTree) (t1 t2 : String) : List XTree :=
  ((findallDesc x t1).map (fun e => e.childrenOf.filter (fun c => c.tagOf == t2))).flatten

/-- findtext('.//T1/T2'). -/
def findtextDescChild (x : XTree) (t1 t2 : String) : Option String :=
  (findallDescChild x t1 t2).head?.map (fun e => e.textOf.getD "")

/-- str.strip() on strings. -/
def pyStrip (s : String) : String := ⟨stripEnds s.toList⟩

/-- Python truthiness of an optional string: false for None and "". -/
def truthyOpt : Option String → Bool
  | none => false
  | some s => s != ""

/-- One parsed record of the Detail Fetcher (line 125). -/
structure RawRecord where
  pmid : Option String
  title : String
  abstract : String
  pub_date : String
deriving DecidableEq, Repr

/-- Publication date of line 124:
f"{year}-{month}-{day}" if year and month and day
else medline_date if medline_date else "N/A". -/
def pubDateOf (pd : XTree) : String :=
  let year := findtextChild pd "Year"
  let month := findtextChild pd "Month"
  let day := findtextChild pd "Day"
  let medline_date := findtextChild pd "MedlineDate"
  if truthyOpt year && truthyOpt month && truthyOpt day then
    year.getD "" ++ "-" ++ month.getD "" ++ "-" ++ day.getD ""
  else if truthyOpt medline_date then medline_date.getD ""
  else "N/A"

/-- The per-record body of the loop at lines 108-125.  Returns none
exactly when find('.//PubDate') is None, in which case the source
raises AttributeError out of the loop. -/
def parseArticle (a : XTree) : Option RawRecord :=
  let pmid := findtextDescChild a "MedlineCitation" "PMID"
  let title := match findDesc a "ArticleTitle" with
    | some t => pyStrip (itertext t)
    | none => "N/A"
  let abstract_text := (findallDescChild a "Abstract" "AbstractText").foldl
    (fun acc e =>
      let acc2 := match e.getAttr "Label" with
        | some lab => if lab ≠ "" then acc ++ "**" ++ lab ++ ":** " else acc
        | none => acc
      let para := pyStrip (itertext e)
      if para ≠ "" then acc2 ++ para ++ "\n" else acc2) ""
  match findDesc a "PubDate" with
  | none => none
  | some pd => some ⟨pmid, title, pyStrip abstract_text, pubDateOf pd⟩

/-- fetch_article_details_with_abstract after the HTTP fetch: parse
every PubmedArticle; any in-loop exception (modelled by a none from
parseArticle) is caught by the batch-level except, which returns []. -/
def fetch_article_details_with_abstract (root : XTree) : List RawRecord :=
  let arts := findallDesc root "PubmedArticle"
  if arts.all (fun a => (parseArticle a).isSome) then arts.filterMap parseArticle
  else []

/-- A MedlineCitation element holding a PMID child. -/
def mcEl (p : String) : XTree :=
  .elem "MedlineCitation" [] none none [.elem "PMID" [] (some p) none []]

/-- A PubDate with Year and Month but no Day, and a MedlineDate. -/
def cDatePd : XTree :=
  .elem "PubDate" [] none none
    [.elem "Year" [] (some "2023") none [],
     .elem "Month" [] (some "06") none [],
     .elem "MedlineDate" [] (some "2023 Jun") none []]

/-- A complete article whose date carries Year/Month/MedlineDate only. -/
def cDateArt : XTree :=
  .elem "PubmedArticle" [] none none
    [mcEl "1", .elem "ArticleTitle" [] (some "T") none [], cDatePd]

/-- An article with no ArticleTitle element (but a PubDate). -/
def cNoTitleArt : XTree :=
  .elem "PubmedArticle" [] none none
    [mcEl "2",
     .elem "PubDate" [] none none [.elem "MedlineDate" [] (some "2020") none []]]

/-- An article with no PubDate element at all. -/
def cArtNoDate : XTree :=
  .elem "PubmedArticle" [] none none
    [mcEl "3", .elem "ArticleTitle" [] (some "Other") none []]

/-- A response with a well-formed article followed by one missing its
PubDate element. -/
def cDocBad : XTree :=
  .elem "PubmedArticleSet" [] none none [cDateArt, cArtNoDate]

/-- A response whose two articles both have a PubDate, one of them
missing its ArticleTitle and Abstract. -/
def cDocGood : XTree :=
  .elem "PubmedArticleSet" [] none none [cDateArt, cNoTitleArt]

/-- A record parses successfully exactly when its PubDate element is
present. -/
theorem parseArticle_isSome (a : XTree) :
    (parseArticle a).isSome = (findDesc a "PubDate").isSome := by
  unfold parseArticle
  cases h : findDesc a "PubDate" <;> simp [h]

theorem length_filterMap_of_all {α β : Type} (f : α → Option β) :
    ∀ l : List α, (∀ a ∈ l, (f a).isSome = true) → (l.filterMap f).length = l.length := by
  intro l
  induction l with
  | nil => intro _; rfl
  | cons a rest ih =>
    intro h
    rw [List.filterMap_cons]
    cases hfa : f a with
    | none => exact absurd (h a (List.mem_cons_self _ _)) (by simp [hfa])
    | some b =>
      simp only [List.length_cons]
      rw [ih (fun x hx => h x (List.mem_cons_of_mem _ hx))]

/-- C4 counterexample: a batch of two records, the second lacking its
PubDate element, makes the Detail Fetcher return the empty list — the
well-formed first record is lost too, so a missing per-record date
element DOES abort the batch. -/
theorem missing_date_aborts_batch :
    (findallDesc cDocBad "PubmedArticle").length = 2 ∧
    (∃ a ∈ findallDesc cDocBad "PubmedArticle", findDesc a "PubDate" = none) ∧
    fetch_article_details_with_abstract cDocBad = [] := by
  refine ⟨rfl, ⟨cArtNoDate, ?_, rfl⟩, rfl⟩
  rw [show findallDesc cDocBad "PubmedArticle" = [cDateArt, cArtNoDate] from rfl]
  exact List.mem_cons_of_mem _ (List.mem_cons_self _ _)

/-- C4 (amended): missing title or abstract elements and missing date
sub-fields degrade per record and never abort the batch — whenever
every record has a PubDate element, the fetcher returns one record per
PubmedArticle element; but if any record lacks its PubDate element the
AttributeError reaches the batch-level handler and the whole batch
yields []. -/
theorem fetch_partial_tolerance (root : XTree) :
    ((∀ a ∈ findallDesc root "PubmedArticle", (findDesc a "PubDate").isSome = true) →
      (fetch_article_details_with_abstract root).length
        = (findallDesc root "PubmedArticle").length) ∧
    ((∃ a ∈ findallDesc root "PubmedArticle", findDesc a "PubDate" = none) →
      fetch_article_details_with_abstract root = []) := by
  constructor
  · intro h
    have hall : ∀ a ∈ findallDesc root "PubmedArticle", (parseArticle a).isSome = true := by
      intro a ha
      rw [parseArticle_isSome]
      exact h a ha
    unfold fetch_article_details_with_abstract
    rw [if_pos (List.all_eq_true.mpr hall)]
    exact length_filterMap_of_all _ _ hall
  · rintro ⟨a, ha, hnone⟩
    unfold fetch_article_details_with_abstract
    rw [if_neg]
    intro hcon
    have h2 := List.all_eq_true.mp hcon a ha
    rw [parseArticle_isSome, hnone] at h2
    simp at h2

/-- Witness for the amended C4 theorem: on a batch whose two records
both carry a PubDate (one missing title and abstract), two records come
back. -/
theorem fetch_partial_tolerance_witness :
    (∀ a ∈ findallDesc cDocGood "PubmedArticle", (findDesc a "PubDate").isSome = true) ∧
      (fetch_article_details_with_abstract cDocGood).length
        = (findallDesc cDocGood "PubmedArticle").length :=
  ⟨by decide, (fetch_partial_tolerance cDocGood).1 (by decide)⟩

/-- C5 counterexample: a record with no ArticleTitle element parses
with title "N/A", not the empty string claimed by the spec. -/
theorem title_absent_not_empty :
    findDesc cNoTitleArt "ArticleTitle" = none ∧
    (parseArticle cNoTitleArt).map RawRecord.title = some "N/A" ∧
    (parseArticle cNoTitleArt).map RawRecord.title ≠ some "" :=
  ⟨rfl, rfl, by decide⟩

/-- C5 (amended): a record whose ArticleTitle element is absent parses
(when its PubDate is present) to a record whose title field is the
sentinel "N/A". -/
theorem title_absent_sentinel (a : XTree) (r : RawRecord)
    (h1 : findDesc a "ArticleTitle" = none) (h2 : parseArticle a = some r) :
    r.title = "N/A" := by
  unfold parseArticle at h2
  rw [h1] at h2
  cases h3 : findDesc a "PubDate" with
  | none =>
    rw [h3] at h2
    exact absurd h2 (by simp)
  | some pd =>
    rw [h3] at h2
    have := Option.some.inj h2
    rw [← this]

/-- Witness for the amended C5 theorem at a concrete record. -/
theorem title_absent_sentinel_witness :
    parseArticle cNoTitleArt = some ⟨some "2", "N/A", "", "2020"⟩ ∧
      (⟨some "2", "N/A", "", "2020"⟩ : RawRecord).title = "N/A" :=
  ⟨rfl, title_absent_sentinel cNoTitleArt ⟨some "2", "N/A", "", "2020"⟩ rfl rfl⟩

/-- C6: publication date selection.  For every record that parses, the
date is Year-Month-Day when Year, Month and Day are all present with
non-empty text; otherwise the MedlineDate text when present and
non-empty; otherwise "N/A".  (The concrete instance of the claim —
year "2023", month "06", no day, medline-date "2023 Jun" yielding
"2023 Jun" — is the witness below.) -/
theorem date_fallback_spec (a pd : XTree) (h : findDesc a "PubDate" = some pd) :
    ∃ r, parseArticle a = some r ∧
      (((truthyOpt (findtextChild pd "Year") && truthyOpt (findtextChild pd "Month") &&
          truthyOpt (findtextChild pd "Day")) = true →
        r.pub_date = (findtextChild pd "Year").getD "" ++ "-" ++
          (findtextChild pd "Month").getD "" ++ "-" ++ (findtextChild pd "Day").getD "") ∧
      ((truthyOpt (findtextChild pd "Year") && truthyOpt (findtextChild pd "Month") &&
          truthyOpt (findtextChild pd "Day")) = false →
        truthyOpt (findtextChild pd "MedlineDate") = true →
        r.pub_date = (findtextChild pd "MedlineDate").getD "") ∧
      ((truthyOpt (findtextChild pd "Year") && truthyOpt (findtextChild pd "Month") &&
          truthyOpt (findtextChild pd "Day")) = false →
        truthyOpt (findtextChild pd "MedlineDate") = false →
        r.pub_date = "N/A")) := by
  unfold parseArticle
  rw [h]
  refine ⟨_, rfl, ?_, ?_, ?_⟩
  · intro hc
    show pubDateOf pd = _
    unfold pubDateOf
    rw [if_pos hc]
  · intro hc hm
    show pubDateOf pd = _
    unfold pubDateOf
    rw [if_neg (by rw [hc]; simp), if_pos hm]
  · intro hc hm
    show pubDateOf pd = _
    unfold pubDateOf
    rw [if_neg (by rw [hc]; simp), if_neg (by rw [hm]; simp)]

/-- Witness for C6: the claim's concrete instance — year "2023", month
"06", day absent, medline-date "2023 Jun" — yields "2023 Jun". -/
theorem date_fallback_witness :
    ∃ r, parseArticle cDateArt = some r ∧ r.pub_date = "2023 Jun" := by
  obtain ⟨r, hr, h1, h2, h3⟩ := date_fallback_spec cDateArt cDatePd rfl
  refine ⟨r, hr, ?_⟩
  rw [h2 rfl rfl]
  rfl

/- ===================================================================
   Section 4: the presentation read API (src/app.py,
   get_articles_from_db, lines 62-104; the sentinel substitution is at
   lines 79-95).

   A durable row read back through the ORM may carry NULL in any
   nullable column (and the id/title of a row object can in principle
   be None to Python), so every field is modelled as optional here.
   keywords is a JSON column holding a list; `keywords_display` joins
   it with ", " (the isinstance(list) branch, the only one reachable
   for list-valued JSON).
   ================================================================= -/

/-- A row as read back from the articles table. -/
structure DBRow where
  id : Option String
  title : Option String
  abstract : Option String
  pub_date : Option String
  keywords : Option (List String)
  summary : Option String
deriving DecidableEq, Repr

/-- A dictionary of the list built for the dashboard. -/
structure DisplayRow where
  id : String
  title : String
  abstract : String
  pub_date : String
  keywords : String
  summary : String
deriving DecidableEq, Repr

/-- The per-article dictionary of app.py lines 80-92. -/
def renderRow (a : DBRow) : DisplayRow :=
  { id := a.id.getD "N/A"
    title := a.title.getD "Untitled"
    abstract := a.abstract.getD "No abstract."
    pub_date := a.pub_date.getD "N/A"
    keywords := String.intercalate ", " (a.keywords.getD [])
    summary := a.summary.getD "No summary." }

/-- get_articles_from_db: query all rows and convert each to its
display dictionary, in order. -/
def get_articles_from_db (rows : List DBRow) : List DisplayRow :=
  rows.map renderRow

/-- C9 counterexample: a row whose summary column is NULL is rendered
with the sentinel "No summary.", not the "No summary available." named
by the spec (that longer string is only the never-used dict.get default
in the display loop at app.py line 505). -/
theorem summary_sentinel_mismatch :
    (get_articles_from_db [⟨some "1", some "t", none, none, none, none⟩]).map
        DisplayRow.summary = ["No summary."] ∧
    (get_articles_from_db [⟨some "1", some "t", none, none, none, none⟩]).map
        DisplayRow.summary ≠ ["No summary available."] :=
  ⟨rfl, by decide⟩

/-- C9 (amended): every article returned by get_articles_from_db has
its missing fields replaced by the display sentinels — "N/A" for id and
publication date, "Untitled" for title, "No abstract." for abstract,
"No summary." for summary — and the keyword list rendered as a
", "-delimited string. -/
theorem get_articles_sentinels (rows : List DBRow) (a : DBRow) (ha : a ∈ rows) :
    renderRow a ∈ get_articles_from_db rows ∧
    (a.id = none → (renderRow a).id = "N/A") ∧
    (a.title = none → (renderRow a).title = "Untitled") ∧
    (a.abstract = none → (renderRow a).abstract = "No abstract.") ∧
    (a.pub_date = none → (renderRow a).pub_date = "N/A") ∧
    (a.summary = none → (renderRow a).summary = "No summary.") ∧
    (renderRow a).keywords = String.intercalate ", " (a.keywords.getD []) := by
  refine ⟨List.mem_map_of_mem renderRow ha, ?_, ?_, ?_, ?_, ?_, rfl⟩
  all_goals intro h; simp [renderRow, h]

/-- Witness for the C9 amended theorem on a row with every nullable
field NULL. -/
theorem get_articles_sentinels_witness :
    (⟨none, none, none, none, some ["k1", "k2"], none⟩ : DBRow) ∈
        [(⟨none, none, none, none, some ["k1", "k2"], none⟩ : DBRow)] ∧
    (renderRow ⟨none, none, none, none, some ["k1", "k2"], none⟩ ∈
        get_articles_from_db [⟨none, none, none, none, some ["k1", "k2"], none⟩] ∧
      renderRow ⟨none, none, none, none, some ["k1", "k2"], none⟩
        = ⟨"N/A", "Untitled", "No abstract.", "N/A", "k1, k2", "No summary."⟩) := by
  have h := get_articles_sentinels
    [⟨none, none, none, none, some ["k1", "k2"], none⟩]
    ⟨none, none, none, none, some ["k1", "k2"], none⟩ (by decide)
  exact ⟨by decide, h.1, by decide⟩

/- ===================================================================
   Section 5: the enrichment stage of the pipeline (pubmed_fetcher.py
   __main__, lines 236-246, with extract_keywords lines 133-143 and
   generate_summary lines 145-158).

   The third-party phrase-ranking (rake_nltk) and extractive
   summarization (sumy) algorithms are not part of this repository;
   they are abstracted as parameters R (ranked phrases of a text) and
   S (summary of a text at a sentence count).  What the source itself
   contributes is embedded: the empty-input guards (`if not text ...`,
   the only guard reachable on a cleaned string input), the [:n]
   truncation of the ranked phrases, and — the point of the claim —
   which text each stage is fed: keywords from title + ". " + abstract
   (line 238), the summary from the abstract alone (line 244), with the
   fixed counts KEYWORD_COUNT = 15 and SUMMARY_SENTENCE_COUNT = 3
   (lines 42-43). -/

def KEYWORD_COUNT : Nat := 15

def SUMMARY_SENTENCE_COUNT : Nat := 3

/-- extract_keywords: empty-input guard, then at most n ranked phrases
of the abstracted ranking algorithm R. -/
def extract_keywords (R : String → List String) (text : String) (n : Nat) : List String :=
  if text = "" then [] else (R text).take n

/-- generate_summary: empty-input guard, then the abstracted extractive
summarizer S. -/
def generate_summary (S : String → Nat → String) (text : String) (n : Nat) : String :=
  if text = "" then "" else S text n

/-- A cleaned record as enriched by the main script (line 230 builds
the dict; title and abstract are the cleaned strings). -/
structure CleanedRecord where
  pmid : Option String
  title : String
  abstract : String
  pub_date : String
deriving DecidableEq, Repr

/-- The enrichment fields attached to a record. -/
structure EnrichedOut where
  keywords : List String
  summary : String
deriving DecidableEq, Repr

/-- The enrichment stage applied to one cleaned record: line 238 feeds
title + ". " + abstract to keyword extraction, line 244 feeds the
abstract alone to summarization. -/
def enrichRecord (R : String → List String) (S : String → Nat → String)
    (c : CleanedRecord) : EnrichedOut :=
  { keywords := extract_keywords R (c.title ++ ". " ++ c.abstract) KEYWORD_COUNT
    summary := generate_summary S c.abstract SUMMARY_SENTENCE_COUNT }

/-- C10: enrichment data flow.  For every cleaned record, keywords are
extracted from title + ". " + abstract while the summary is generated
from the abstract alone; hence an empty abstract forces an empty
summary (for every summarizer S), while the keyword input stays
non-empty whenever the title is non-empty, so the keyword list can be
non-empty (exhibited for a concrete ranking). -/
theorem enrichment_dataflow (R : String → List String) (S : String → Nat → String)
    (c : CleanedRecord) :
    (enrichRecord R S c).keywords
        = extract_keywords R (c.title ++ ". " ++ c.abstract) KEYWORD_COUNT ∧
    (enrichRecord R S c).summary = generate_summary S c.abstract SUMMARY_SENTENCE_COUNT ∧
    (c.abstract = "" → (enrichRecord R S c).summary = "") ∧
    (∃ R2 c2, c2.abstract = "" ∧ c2.title ≠ "" ∧
      (enrichRecord R2 S c2).summary = "" ∧ (enrichRecord R2 S c2).keywords ≠ []) := by
  refine ⟨rfl, rfl, ?_, ?_⟩
  · intro h
    simp [enrichRecord, generate_summary, h]
  · refine ⟨fun _ => ["kw"], ⟨none, "t", "", "N/A"⟩, rfl, by decide, ?_, ?_⟩
    · simp [enrichRecord, generate_summary]
    · simp [enrichRecord, extract_keywords, KEYWORD_COUNT]

/-- Witness for C10 at a concrete record with an empty abstract and a
non-empty title. -/
theorem enrichment_dataflow_witness :
    ((⟨some "1", "A title", "", "N/A"⟩ : CleanedRecord).abstract = "") ∧
      (enrichRecord (fun s => [s]) (fun _ _ => "SUMMARY")
        ⟨some "1", "A title", "", "N/A"⟩).summary = "" ∧
      (enrichRecord (fun s => [s]) (fun _ _ => "SUMMARY")
        ⟨some "1", "A title", "", "N/A"⟩).keywords = ["A title. "] :=
  ⟨rfl,
   (enrichment_dataflow (fun s => [s]) (fun _ _ => "SUMMARY")
      ⟨some "1", "A title", "", "N/A"⟩).2.2.1 rfl,
   by decide⟩
